import Mathlib

/-!
# Verification of `serial_stream_sim.py`

A shallow embedding of the serial-stream frame simulator: CRC-16/CCITT-FALSE
checksum, frame encoding (`make_frame`), sync search (`find_sync`), and the
chunked stream-reassembly loop (`read_serial_stream`). Bytes are modelled as
`Nat` values (< 256 on every reachable input), byte strings as `List Nat`.
-/

/-- The two-byte frame-start marker `SYNC = b'\xBE\xEF'` (source line 16). -/
def SYNC : List Nat := [0xBE, 0xEF]

/-- Modelled from the spec: one MSB-first shift step of the CRC-16/CCITT-FALSE
register (generator polynomial 0x1021 with implicit leading bit, no
reflection).  The register is a 16-bit value; if the bit shifted out is 1 the
polynomial is xor-ed in.  The actual CRC code lives in the external `crcmod`
library (`crcmod.mkCrcFun(0x11021, initCrc=0xFFFF, rev=False, xorOut=0x0000)`,
source lines 31-36); only its parameters appear in the repository. -/
def crc_round (c : Nat) : Nat :=
  if 0x8000 ≤ c then (c - 0x8000) * 2 ^^^ 0x1021 else c * 2

/-- Modelled from the spec: folding one input byte into the CRC register:
xor the byte into the high half, then shift eight times. -/
def crc_update (c b : Nat) : Nat := crc_round^[8] (c ^^^ (b <<< 8))

/-- `crc16_ccitt` (source lines 42-51): CRC-16/CCITT-FALSE over a byte list,
initial register 0xFFFF, no final xor. -/
def crc16_ccitt (data : List Nat) : Nat := data.foldl crc_update 0xFFFF

/-- Big-endian 2-byte encoding, `int.to_bytes(2, 'big')` (source lines 64-67);
faithful for values below 65536. -/
def be16 (n : Nat) : List Nat := [n / 256 % 256, n % 256]

/-- `make_frame` (source lines 53-68) with the randomly drawn payload items
made an explicit argument: SYNC + 2-byte big-endian item count + items as
2-byte big-endian values + 2-byte big-endian CRC over everything before the
CRC field. -/
def make_frame (payload : List Nat) : List Nat :=
  SYNC ++ be16 payload.length ++ payload.flatMap be16 ++
    be16 (crc16_ccitt (SYNC ++ be16 payload.length ++ payload.flatMap be16))

/-- The CRC-covered part of a frame (`SYNC + length + payload`, source
line 66): every frame byte except the trailing two CRC bytes. -/
def frame_body (payload : List Nat) : List Nat :=
  SYNC ++ be16 payload.length ++ payload.flatMap be16

/-- `find_sync` (source lines 78-91): index of the first two-byte occurrence
of the marker, scanning positions `0 .. len-2`; `none` models the `-1`
not-found return. -/
def find_sync : List Nat → Option Nat
  | a :: b :: rest =>
    if a = 0xBE ∧ b = 0xEF then some 0
    else (find_sync (b :: rest)).map (· + 1)
  | _ => none

/-- Modelled from the spec: the external `construct` library's `Int16ub`
parser: two bytes, big-endian, returning the value and the remaining bytes. -/
def parse_u16 : List Nat → Option (Nat × List Nat)
  | a :: b :: rest => some (a * 256 + b, rest)
  | _ => none

/-- Modelled from the spec: `Array(this.length, Int16ub)` of the `construct`
library: parse `n` consecutive big-endian 16-bit items. -/
def parseItems : Nat → List Nat → Option (List Nat × List Nat)
  | 0, bytes => some ([], bytes)
  | n + 1, bytes =>
    match parse_u16 bytes with
    | none => none
    | some (v, rest) =>
      match parseItems n rest with
      | none => none
      | some (vs, rest2) => some (v :: vs, rest2)

/-- Modelled from the spec: `Frame.parse` for the `construct` struct declared
at source lines 23-28: fixed marker `Const(SYNC)`, big-endian length, `length`
big-endian payload items, big-endian CRC.  Returns `(length, payload, crc)`
or `none` when the structural parse raises. -/
def parseFrame (frame : List Nat) : Option (Nat × List Nat × Nat) :=
  match frame with
  | 0xBE :: 0xEF :: l1 :: l2 :: rest =>
    match parseItems (l1 * 256 + l2) rest with
    | none => none
    | some (payload, rest2) =>
      match parse_u16 rest2 with
      | none => none
      | some (crc, _) => some (l1 * 256 + l2, payload, crc)
  | _ => none

/-- One decode outcome per extracted candidate (the three `logger.info`
branches of source lines 136-144). -/
inductive FrameEvent where
  | valid : List Nat → FrameEvent
  | crcMismatch : Nat → Nat → List Nat → FrameEvent
  | parseError : List Nat → FrameEvent
deriving DecidableEq

/-- Decode-and-validate of one extracted candidate (source lines 136-144):
parse, recompute the CRC over all bytes but the last two, and report a valid
frame, a CRC mismatch (computed value, received value, raw bytes) or a parse
error (raw bytes). -/
def processCandidate (frame : List Nat) : FrameEvent :=
  match parseFrame frame with
  | none => FrameEvent.parseError frame
  | some (_, payload, crc) =>
    if crc = crc16_ccitt (frame.take (frame.length - 2))
    then FrameEvent.valid payload
    else FrameEvent.crcMismatch (crc16_ccitt (frame.take (frame.length - 2))) crc frame

/-- `total_frame_len` computed from a buffer whose marker is at the front
(source lines 126-127): `payload_len = buffer[2] << 8 | buffer[3]`,
`total_frame_len = 2 + 2 + payload_len * 2 + 2`. -/
def totalFrameLen (b : List Nat) : Nat :=
  2 + 2 + (b.getD 2 0 <<< 8 ||| b.getD 3 0) * 2 + 2

/-- The inner `while True` loop of `read_serial_stream` (source lines
115-144) acting on one buffer content: find the first sync, discard the bytes
before it, stop if fewer than 4 bytes or fewer than `total_frame_len` bytes
remain, otherwise extract the candidate from the front, decode it, and
repeat.  Returns the emitted events and the leftover buffer. -/
def processBuffer (buf : List Nat) : List FrameEvent × List Nat :=
  match find_sync buf with
  | none => ([], buf)
  | some idx =>
    if h4 : (buf.drop idx).length < 4 then ([], buf.drop idx)
    else if hT : (buf.drop idx).length < totalFrameLen (buf.drop idx) then
      ([], buf.drop idx)
    else
      let next := processBuffer ((buf.drop idx).drop (totalFrameLen (buf.drop idx)))
      (processCandidate ((buf.drop idx).take (totalFrameLen (buf.drop idx))) :: next.1,
        next.2)
termination_by buf.length
decreasing_by
  have h6 : 6 ≤ totalFrameLen (buf.drop idx) := by
    unfold totalFrameLen; omega
  simp only [List.length_drop] at hT ⊢
  omega

/-- Splitting a byte string into the successive chunks returned by
`stream.read(chunk_size)` on an in-memory stream (source line 109). -/
def chunksOf (c : Nat) : List Nat → List (List Nat)
  | [] => []
  | a :: rest =>
    if c = 0 then []
    else (a :: rest).take c :: chunksOf c ((a :: rest).drop c)
termination_by data => data.length
decreasing_by
  simp only [List.length_drop, List.length_cons]
  omega

/-- The outer `while True` read loop of `read_serial_stream` (source lines
108-144): stop on an empty chunk, otherwise append the chunk to the buffer
and run the inner loop. -/
def runChunks : List (List Nat) → List Nat → List FrameEvent
  | [], _ => []
  | chunk :: rest, buf =>
    if chunk = [] then []
    else
      (processBuffer (buf ++ chunk)).1 ++
        runChunks rest (processBuffer (buf ++ chunk)).2

/-- `read_serial_stream` (source lines 93-144) on an in-memory stream holding
`data`, read in chunks of `chunk_size` bytes: the ordered list of emitted
frame events. -/
def read_serial_stream (data : List Nat) (chunk_size : Nat) : List FrameEvent :=
  runChunks (chunksOf chunk_size data) []

/-- The payloads of the valid-frame events, in emission order. -/
def validPayloads (evs : List FrameEvent) : List (List Nat) :=
  evs.filterMap fun e =>
    match e with
    | FrameEvent.valid p => some p
    | _ => none

/-! ## Lemmas about `find_sync` -/

lemma find_sync_marker (t : List Nat) : find_sync (0xBE :: 0xEF :: t) = some 0 := by
  simp [find_sync]

lemma find_sync_short (buf : List Nat) (h : buf.length < 2) : find_sync buf = none := by
  match buf with
  | [] => rfl
  | [a] => rfl
  | a :: b :: t => simp only [List.length_cons] at h; omega

/-- A found sync index points at an actual marker: the buffer from that index
on starts with the two marker bytes. -/
lemma find_sync_drop (buf : List Nat) (idx : Nat) (h : find_sync buf = some idx) :
    ∃ t, buf.drop idx = 0xBE :: 0xEF :: t := by
  induction buf generalizing idx with
  | nil => simp [find_sync] at h
  | cons a rest ih =>
    match rest with
    | [] => simp [find_sync] at h
    | b :: r =>
      rw [find_sync] at h
      by_cases hm : a = 0xBE ∧ b = 0xEF
      · rw [if_pos hm] at h
        cases h
        exact ⟨r, by simp [hm.1, hm.2]⟩
      · rw [if_neg hm] at h
        match hidx : find_sync (b :: r) with
        | none => rw [hidx] at h; simp at h
        | some j =>
          rw [hidx] at h
          simp only [Option.map_some'] at h
          injection h with h
          subst h
          obtain ⟨t, ht⟩ := ih j hidx
          exact ⟨t, by simpa using ht⟩

/-- `find_sync` returns the index of the FIRST marker occurrence; an
occurrence at index `j` is `buf.drop j` starting with the marker bytes. -/
lemma find_sync_eq_some_iff (buf : List Nat) (idx : Nat) :
    find_sync buf = some idx ↔
      (∃ t, buf.drop idx = 0xBE :: 0xEF :: t) ∧
        ∀ j, j < idx → ¬∃ t, buf.drop j = 0xBE :: 0xEF :: t := by
  induction buf generalizing idx with
  | nil =>
    constructor
    · intro h; simp [find_sync] at h
    · rintro ⟨⟨t, ht⟩, -⟩; simp at ht
  | cons a rest ih =>
    match rest with
    | [] =>
      constructor
      · intro h; simp [find_sync] at h
      · rintro ⟨⟨t, ht⟩, -⟩
        have := congrArg List.length ht
        simp [List.length_drop] at this
        omega
    | b :: r =>
      rw [find_sync]
      by_cases hm : a = 0xBE ∧ b = 0xEF
      · rw [if_pos hm]
        constructor
        · intro h
          cases h
          exact ⟨⟨r, by simp [hm.1, hm.2]⟩, by omega⟩
        · rintro ⟨-, hmin⟩
          by_contra hne
          have hidx : 0 < idx := by
            rcases Nat.eq_zero_or_pos idx with h0 | h0
            · exact absurd (by rw [h0]) hne
            · exact h0
          exact hmin 0 hidx ⟨r, by simp [hm.1, hm.2]⟩
      · rw [if_neg hm]
        constructor
        · intro h
          match hidx : find_sync (b :: r) with
          | none => rw [hidx] at h; simp at h
          | some j =>
            rw [hidx] at h
            simp only [Option.map_some'] at h
            injection h with h
            subst h
            obtain ⟨⟨t, ht⟩, hmin⟩ := (ih j).mp hidx
            refine ⟨⟨t, by simpa using ht⟩, ?_⟩
            intro k hk
            match k with
            | 0 =>
              rintro ⟨t', ht'⟩
              simp only [List.drop_zero] at ht'
              exact hm ⟨by injection ht', by injection ht' with _ h2; injection h2⟩
            | k' + 1 =>
              have hk' : k' < j := by omega
              exact fun hocc => hmin k' hk' (by simpa using hocc)
        · rintro ⟨⟨t, ht⟩, hmin⟩
          match idx with
          | 0 =>
            simp only [List.drop_zero] at ht
            exact absurd ⟨by injection ht, by injection ht with _ h2; injection h2⟩ hm
          | j + 1 =>
            have hj : find_sync (b :: r) = some j := by
              refine (ih j).mpr ⟨⟨t, by simpa using ht⟩, ?_⟩
              intro k hk hocc
              exact hmin (k + 1) (by omega) (by simpa using hocc)
            rw [hj]; rfl

/-- The first marker occurrence in `buf` stays the first occurrence after
appending more bytes. -/
lemma find_sync_append_some (buf extra : List Nat) (idx : Nat)
    (h : find_sync buf = some idx) : find_sync (buf ++ extra) = some idx := by
  induction buf generalizing idx with
  | nil => simp [find_sync] at h
  | cons a rest ih =>
    match rest with
    | [] => simp [find_sync] at h
    | b :: r =>
      rw [find_sync] at h
      rw [List.cons_append, List.cons_append, find_sync]
      by_cases hm : a = 0xBE ∧ b = 0xEF
      · rw [if_pos hm] at h ⊢; exact h
      · rw [if_neg hm] at h ⊢
        match hidx : find_sync (b :: r) with
        | none => rw [hidx] at h; simp at h
        | some j =>
          rw [hidx] at h
          have := ih j hidx
          rw [List.cons_append] at this
          rw [this]
          exact h

/-- Appending a marker (and anything after it) to a marker-free buffer puts
the first sync exactly at the end of the old buffer. -/
lemma find_sync_none_append_marker (n t : List Nat) (h : find_sync n = none) :
    find_sync (n ++ 0xBE :: 0xEF :: t) = some n.length := by
  induction n with
  | nil => simpa using find_sync_marker t
  | cons a rest ih =>
    match rest with
    | [] =>
      rw [List.cons_append, List.nil_append, find_sync]
      rw [if_neg (by simp)]
      rw [find_sync_marker]
      rfl
    | b :: r =>
      rw [find_sync] at h
      by_cases hm : a = 0xBE ∧ b = 0xEF
      · rw [if_pos hm] at h; simp at h
      · rw [if_neg hm] at h
        have hbr : find_sync (b :: r) = none := by
          rcases hfs : find_sync (b :: r) with - | j
          · rfl
          · rw [hfs] at h; simp at h
        rw [List.cons_append, List.cons_append, find_sync]
        rw [if_neg hm]
        have := ih hbr
        rw [List.cons_append] at this
        rw [this]
        simp


/-! ## Case lemmas for one pass of the inner loop -/

lemma processBuffer_none (buf : List Nat) (h : find_sync buf = none) :
    processBuffer buf = ([], buf) := by
  rw [processBuffer, h]

lemma processBuffer_stop_short (buf : List Nat) (idx : Nat)
    (h : find_sync buf = some idx) (h4 : (buf.drop idx).length < 4) :
    processBuffer buf = ([], buf.drop idx) := by
  rw [processBuffer, h]
  exact dif_pos h4

lemma processBuffer_stop_incomplete (buf : List Nat) (idx : Nat)
    (h : find_sync buf = some idx) (h4 : ¬(buf.drop idx).length < 4)
    (hT : (buf.drop idx).length < totalFrameLen (buf.drop idx)) :
    processBuffer buf = ([], buf.drop idx) := by
  rw [processBuffer, h]
  exact (dif_neg h4).trans (dif_pos hT)

lemma processBuffer_extract (buf : List Nat) (idx : Nat)
    (h : find_sync buf = some idx) (h4 : ¬(buf.drop idx).length < 4)
    (hT : ¬(buf.drop idx).length < totalFrameLen (buf.drop idx)) :
    processBuffer buf =
      (processCandidate ((buf.drop idx).take (totalFrameLen (buf.drop idx))) ::
          (processBuffer ((buf.drop idx).drop (totalFrameLen (buf.drop idx)))).1,
        (processBuffer ((buf.drop idx).drop (totalFrameLen (buf.drop idx)))).2) := by
  rw [processBuffer, h]
  exact (dif_neg h4).trans (dif_neg hT)

/-! ## Structural lemmas for the inner loop -/

/-- Discarding to sync emits nothing: the run on `buf` coincides with the run
on `buf` with the pre-sync junk removed. -/
lemma processBuffer_drop_sync (buf : List Nat) (idx : Nat)
    (h : find_sync buf = some idx) :
    processBuffer buf = processBuffer (buf.drop idx) := by
  obtain ⟨t, ht⟩ := find_sync_drop buf idx h
  have h0 : find_sync (buf.drop idx) = some 0 := by rw [ht]; exact find_sync_marker t
  by_cases h4 : (buf.drop idx).length < 4
  · rw [processBuffer_stop_short buf idx h h4,
      processBuffer_stop_short (buf.drop idx) 0 h0 (by simpa using h4)]
    simp
  · by_cases hT : (buf.drop idx).length < totalFrameLen (buf.drop idx)
    · rw [processBuffer_stop_incomplete buf idx h h4 hT,
        processBuffer_stop_incomplete (buf.drop idx) 0 h0 (by simpa using h4)
          (by simpa using hT)]
      simp
    · rw [processBuffer_extract buf idx h h4 hT,
        processBuffer_extract (buf.drop idx) 0 h0 (by simpa using h4)
          (by simpa using hT)]
      simp

/-- A frame extraction consumes at least six bytes of the buffer. -/
lemma totalFrameLen_ge (b : List Nat) : 6 ≤ totalFrameLen b := by
  unfold totalFrameLen; omega

/-- The buffer left over by the inner loop is quiescent: running the loop on
it again emits nothing and leaves it unchanged. -/
lemma processBuffer_snd_quiescent :
    ∀ n (buf : List Nat), buf.length ≤ n →
      processBuffer (processBuffer buf).2 = ([], (processBuffer buf).2) := by
  intro n
  induction n with
  | zero =>
    intro buf hlen
    have hbuf : buf = [] := List.length_eq_zero.mp (Nat.le_zero.mp hlen)
    subst hbuf
    rw [processBuffer_none [] rfl]
    exact processBuffer_none [] rfl
  | succ n ih =>
    intro buf hlen
    rcases hfs : find_sync buf with - | idx
    · rw [processBuffer_none buf hfs]
      exact processBuffer_none buf hfs
    · obtain ⟨t, ht⟩ := find_sync_drop buf idx hfs
      have h0 : find_sync (buf.drop idx) = some 0 := by
        rw [ht]; exact find_sync_marker t
      by_cases h4 : (buf.drop idx).length < 4
      · rw [processBuffer_stop_short buf idx hfs h4]
        have := processBuffer_stop_short (buf.drop idx) 0 h0 (by simpa using h4)
        simpa using this
      · by_cases hT : (buf.drop idx).length < totalFrameLen (buf.drop idx)
        · rw [processBuffer_stop_incomplete buf idx hfs h4 hT]
          have := processBuffer_stop_incomplete (buf.drop idx) 0 h0
            (by simpa using h4) (by simpa using hT)
          simpa using this
        · rw [processBuffer_extract buf idx hfs h4 hT]
          have h6 := totalFrameLen_ge (buf.drop idx)
          have hrest : ((buf.drop idx).drop (totalFrameLen (buf.drop idx))).length ≤ n := by
            simp only [List.length_drop] at hT ⊢
            omega
          exact ih _ hrest

/-- Feeding more bytes after a processed buffer continues exactly where the
previous run stopped: the events of `buf ++ extra` are the events of `buf`
followed by the events of the leftover plus the new bytes. -/
lemma processBuffer_append :
    ∀ n (buf : List Nat), buf.length ≤ n → ∀ extra : List Nat,
      processBuffer (buf ++ extra) =
        ((processBuffer buf).1 ++ (processBuffer ((processBuffer buf).2 ++ extra)).1,
          (processBuffer ((processBuffer buf).2 ++ extra)).2) := by
  intro n
  induction n with
  | zero =>
    intro buf hlen extra
    have hbuf : buf = [] := List.length_eq_zero.mp (Nat.le_zero.mp hlen)
    subst hbuf
    rw [processBuffer_none [] rfl]
    simp
  | succ n ih =>
    intro buf hlen extra
    rcases hfs : find_sync buf with - | idx
    · rw [processBuffer_none buf hfs]
      simp
    · obtain ⟨t, ht⟩ := find_sync_drop buf idx hfs
      have hidxle : idx ≤ buf.length := by
        have := congrArg List.length ht
        simp only [List.length_drop, List.length_cons] at this
        omega
      have hfs' : find_sync (buf ++ extra) = some idx :=
        find_sync_append_some buf extra idx hfs
      have hdropapp : (buf ++ extra).drop idx = buf.drop idx ++ extra :=
        List.drop_append_of_le_length hidxle
      by_cases h4 : (buf.drop idx).length < 4
      · rw [processBuffer_stop_short buf idx hfs h4]
        simp only [List.nil_append]
        rw [processBuffer_drop_sync (buf ++ extra) idx hfs', hdropapp]
      · by_cases hT : (buf.drop idx).length < totalFrameLen (buf.drop idx)
        · rw [processBuffer_stop_incomplete buf idx hfs h4 hT]
          simp only [List.nil_append]
          rw [processBuffer_drop_sync (buf ++ extra) idx hfs', hdropapp]
        · -- extraction happens in both runs
          have h6 := totalFrameLen_ge (buf.drop idx)
          have hTle : totalFrameLen (buf.drop idx) ≤ (buf.drop idx).length := by omega
          have hgetD : ∀ k, k < 4 → (buf.drop idx ++ extra).getD k 0 = (buf.drop idx).getD k 0 := by
            intro k hk
            exact List.getD_append _ _ _ _ (by omega)
          have hTeq : totalFrameLen (buf.drop idx ++ extra) = totalFrameLen (buf.drop idx) := by
            unfold totalFrameLen
            rw [hgetD 2 (by omega), hgetD 3 (by omega)]
          have h4' : ¬((buf ++ extra).drop idx).length < 4 := by
            rw [hdropapp]
            simp only [List.length_append]
            omega
          have hT' : ¬((buf ++ extra).drop idx).length <
              totalFrameLen ((buf ++ extra).drop idx) := by
            rw [hdropapp, hTeq]
            simp only [List.length_append]
            omega
          rw [processBuffer_extract (buf ++ extra) idx hfs' h4' hT',
            processBuffer_extract buf idx hfs h4 hT]
          rw [hdropapp, hTeq]
          rw [List.take_append_of_le_length hTle,
            List.drop_append_of_le_length hTle]
          have htake : (buf.drop idx).take (totalFrameLen (buf.drop idx)) =
              (buf.drop idx).take (totalFrameLen (buf.drop idx)) := rfl
          have hrestlen : ((buf.drop idx).drop (totalFrameLen (buf.drop idx))).length ≤ n := by
            simp only [List.length_drop] at hT ⊢
            omega
          rw [ih _ hrestlen extra]
          simp

/-! ## The outer read loop -/

lemma chunksOf_flatten :
    ∀ n (data : List Nat), data.length ≤ n → ∀ c, 0 < c →
      (chunksOf c data).flatten = data := by
  intro n
  induction n with
  | zero =>
    intro data hlen c hc
    have : data = [] := List.length_eq_zero.mp (Nat.le_zero.mp hlen)
    subst this
    rw [chunksOf]
    rfl
  | succ n ih =>
    intro data hlen c hc
    match data with
    | [] => rw [chunksOf]; rfl
    | a :: rest =>
      rw [chunksOf, if_neg (by omega)]
      rw [List.flatten_cons]
      rw [ih ((a :: rest).drop c) (by simp only [List.length_drop, List.length_cons] at hlen ⊢; omega) c hc]
      exact List.take_append_drop c (a :: rest)

lemma chunksOf_ne_nil :
    ∀ n (data : List Nat), data.length ≤ n → ∀ c, 0 < c →
      ∀ ch ∈ chunksOf c data, ch ≠ [] := by
  intro n
  induction n with
  | zero =>
    intro data hlen c hc ch hch
    have : data = [] := List.length_eq_zero.mp (Nat.le_zero.mp hlen)
    subst this
    simp [chunksOf] at hch
  | succ n ih =>
    intro data hlen c hc ch hch
    match data with
    | [] => simp [chunksOf] at hch
    | a :: rest =>
      rw [chunksOf, if_neg (by omega)] at hch
      rcases List.mem_cons.mp hch with h | h
      · subst h
        obtain ⟨ck, rfl⟩ : ∃ ck, c = ck + 1 := ⟨c - 1, by omega⟩
        simp [List.take_succ_cons]
      · exact ih ((a :: rest).drop c)
          (by simp only [List.length_drop, List.length_cons] at hlen ⊢; omega) c hc ch h

/-- The chunked outer loop produces exactly the events of processing the
whole remaining stream at once, for any starting quiescent buffer. -/
lemma runChunks_eq_processBuffer :
    ∀ (cs : List (List Nat)) (buf : List Nat),
      processBuffer buf = ([], buf) → (∀ ch ∈ cs, ch ≠ []) →
      runChunks cs buf = (processBuffer (buf ++ cs.flatten)).1 := by
  intro cs
  induction cs with
  | nil =>
    intro buf hq _
    rw [runChunks]
    simp [hq]
  | cons c cs ih =>
    intro buf hq hne
    have hc : c ≠ [] := hne c (List.mem_cons_self c cs)
    rw [runChunks, if_neg hc]
    have hquiet : processBuffer (processBuffer (buf ++ c)).2 =
        ([], (processBuffer (buf ++ c)).2) :=
      processBuffer_snd_quiescent (buf ++ c).length (buf ++ c) le_rfl
    rw [ih (processBuffer (buf ++ c)).2 hquiet
      (fun ch h => hne ch (List.mem_cons_of_mem c h))]
    rw [List.flatten_cons, ← List.append_assoc]
    rw [processBuffer_append (buf ++ c).length (buf ++ c) le_rfl cs.flatten]

/-- For every positive chunk size, reading the stream chunkwise emits exactly
the events of processing the whole stream as one buffer. -/
lemma read_serial_stream_eq (data : List Nat) (c : Nat) (hc : 0 < c) :
    read_serial_stream data c = (processBuffer data).1 := by
  unfold read_serial_stream
  rw [runChunks_eq_processBuffer (chunksOf c data) [] (processBuffer_none [] rfl)
    (chunksOf_ne_nil data.length data le_rfl c hc)]
  rw [chunksOf_flatten data.length data le_rfl c hc]
  rfl

/-! ## Byte and length facts about encoded frames -/

lemma make_frame_def (p : List Nat) :
    make_frame p = frame_body p ++ be16 (crc16_ccitt (frame_body p)) := rfl

lemma be16_mem_lt (n : Nat) : ∀ x ∈ be16 n, x < 256 := by
  intro x hx
  simp only [be16, List.mem_cons, List.mem_singleton, List.not_mem_nil, or_false] at hx
  rcases hx with h | h <;> subst h <;> omega

lemma flatMap_be16_length (p : List Nat) : (p.flatMap be16).length = 2 * p.length := by
  induction p with
  | nil => rfl
  | cons x p ih =>
    simp only [List.flatMap_cons, List.length_append, ih, be16, List.length_cons,
      List.length_nil, List.length_cons]
    omega

lemma frame_body_length (p : List Nat) : (frame_body p).length = 4 + 2 * p.length := by
  simp only [frame_body, SYNC, List.length_append, flatMap_be16_length, be16]
  rfl

lemma make_frame_length (p : List Nat) : (make_frame p).length = 6 + 2 * p.length := by
  rw [make_frame_def]
  simp only [List.length_append, frame_body_length, be16, List.length_cons,
    List.length_nil]
  omega

lemma frame_body_mem_lt (p : List Nat) : ∀ x ∈ frame_body p, x < 256 := by
  intro x hx
  simp only [frame_body, SYNC, List.mem_append] at hx
  rcases hx with (h | h) | h
  · simp only [List.mem_cons, List.mem_singleton, List.not_mem_nil, or_false] at h
    rcases h with h | h <;> subst h <;> omega
  · exact be16_mem_lt _ x h
  · obtain ⟨y, -, hy⟩ := List.mem_flatMap.mp h
    exact be16_mem_lt y x hy

lemma be16_decode (n : Nat) (h : n < 65536) : n / 256 % 256 * 256 + n % 256 = n := by
  omega

/-! ## The CRC register stays a 16-bit value -/

lemma xor_lt_65536 {a b : Nat} (ha : a < 65536) (hb : b < 65536) : a ^^^ b < 65536 := by
  have h := Nat.bitwise_lt (f := bne) (n := 16) (x := a) (y := b)
    (by norm_num at ha ⊢; exact ha) (by norm_num at hb ⊢; exact hb)
  norm_num at h
  exact h

lemma crc_round_lt {c : Nat} (h : c < 65536) : crc_round c < 65536 := by
  unfold crc_round
  split
  · exact xor_lt_65536 (by omega) (by norm_num)
  · omega

lemma crc_round_iterate_lt {c : Nat} (h : c < 65536) (k : Nat) :
    crc_round^[k] c < 65536 := by
  induction k generalizing c with
  | zero => exact h
  | succ k ih =>
    rw [Function.iterate_succ_apply]
    exact ih (crc_round_lt h)

lemma crc_update_lt {c b : Nat} (hc : c < 65536) (hb : b < 256) :
    crc_update c b < 65536 := by
  unfold crc_update
  have hb8 : b <<< 8 < 65536 := by
    rw [Nat.shiftLeft_eq]
    norm_num
    omega
  exact crc_round_iterate_lt (xor_lt_65536 hc hb8) 8

lemma crc_foldl_lt (data : List Nat) :
    ∀ c, c < 65536 → (∀ x ∈ data, x < 256) → data.foldl crc_update c < 65536 := by
  induction data with
  | nil => intro c hc _; exact hc
  | cons b rest ih =>
    intro c hc hbytes
    rw [List.foldl_cons]
    exact ih _ (crc_update_lt hc (hbytes b (List.mem_cons_self b rest)))
      (fun x hx => hbytes x (List.mem_cons_of_mem b hx))

lemma crc16_lt (data : List Nat) (h : ∀ x ∈ data, x < 256) : crc16_ccitt data < 65536 :=
  crc_foldl_lt data 0xFFFF (by norm_num) h

/-! ## Round-trip: parsing an encoded frame -/

lemma parseItems_roundtrip (p : List Nat) (hp : ∀ x ∈ p, x < 65536) (r : List Nat) :
    parseItems p.length (p.flatMap be16 ++ r) = some (p, r) := by
  induction p with
  | nil => rfl
  | cons x p ih =>
    have hx : x < 65536 := hp x (List.mem_cons_self x p)
    simp only [List.length_cons, List.flatMap_cons, be16, List.cons_append,
      List.nil_append, List.append_assoc]
    rw [parseItems]
    simp only [parse_u16]
    rw [be16_decode x hx]
    rw [ih (fun y hy => hp y (List.mem_cons_of_mem x hy))]

lemma frame_body_cons (p : List Nat) :
    frame_body p = 0xBE :: 0xEF :: (p.length / 256 % 256) :: (p.length % 256) ::
      p.flatMap be16 := by
  simp [frame_body, SYNC, be16]

lemma parseFrame_make_frame (p : List Nat) (hlen : p.length < 65536)
    (hp : ∀ x ∈ p, x < 65536) :
    parseFrame (make_frame p) =
      some (p.length, p, crc16_ccitt (frame_body p)) := by
  have hcrc : crc16_ccitt (frame_body p) < 65536 :=
    crc16_lt (frame_body p) (frame_body_mem_lt p)
  rw [make_frame_def]
  generalize hC : crc16_ccitt (frame_body p) = C at hcrc ⊢
  rw [frame_body_cons]
  simp only [List.cons_append]
  rw [parseFrame]
  rw [be16_decode p.length hlen]
  rw [parseItems_roundtrip p hp (be16 C)]
  simp only [be16, parse_u16]
  rw [be16_decode C hcrc]

lemma processCandidate_make_frame (p : List Nat) (hlen : p.length < 65536)
    (hp : ∀ x ∈ p, x < 65536) :
    processCandidate (make_frame p) = FrameEvent.valid p := by
  rw [processCandidate, parseFrame_make_frame p hlen hp]
  have htake : (make_frame p).take ((make_frame p).length - 2) = frame_body p := by
    rw [make_frame_def]
    have h2 : (frame_body p ++ be16 (crc16_ccitt (frame_body p))).length - 2 =
        (frame_body p).length := by
      simp only [List.length_append, frame_body_length, be16, List.length_cons,
        List.length_nil]
      omega
    rw [h2]
    exact List.take_left (frame_body p) _
  rw [htake]
  simp

/-! ## The length-field arithmetic `buffer[2] << 8 | buffer[3]` -/

lemma mul_pow_lor : ∀ (k a b : Nat), b < 2 ^ k → a * 2 ^ k ||| b = a * 2 ^ k + b := by
  intro k
  induction k with
  | zero =>
    intro a b hb
    have hb0 : b = 0 := by simpa using hb
    subst hb0
    simp
  | succ k ih =>
    intro a b hb
    have hb2 : b / 2 < 2 ^ k := by
      have h2 : 2 ^ (k + 1) = 2 * 2 ^ k := by ring
      omega
    have hbit : Nat.bit (decide (b % 2 = 1)) (b / 2) = b := by
      have h := Nat.bit_decide_mod_two_eq_one_shiftRight_one b
      simpa [Nat.shiftRight_one] using h
    have ha : a * 2 ^ (k + 1) = Nat.bit false (a * 2 ^ k) := by
      rw [Nat.bit_val]
      simp only [Bool.toNat_false, Nat.add_zero]
      ring
    calc a * 2 ^ (k + 1) ||| b
        = Nat.bit false (a * 2 ^ k) ||| Nat.bit (decide (b % 2 = 1)) (b / 2) := by
          rw [ha, hbit]
      _ = Nat.bit (false || decide (b % 2 = 1)) (a * 2 ^ k ||| b / 2) :=
          Nat.lor_bit _ _ _ _
      _ = Nat.bit (decide (b % 2 = 1)) (a * 2 ^ k + b / 2) := by
          rw [ih a (b / 2) hb2]
          simp
      _ = a * 2 ^ (k + 1) + b := by
          rw [Nat.bit_val]
          have hm : (decide (b % 2 = 1)).toNat = b % 2 := by
            rcases Nat.mod_two_eq_zero_or_one b with h | h <;> simp [h]
          rw [hm]
          have h2 : a * 2 ^ (k + 1) = 2 * (a * 2 ^ k) := by ring
          rw [h2]
          generalize a * 2 ^ k = Y
          omega

/-- The Python expression `hi << 8 | lo` equals `hi * 256 + lo` whenever `lo`
is a byte. -/
lemma shiftLeft8_lor (a b : Nat) (hb : b < 256) : a <<< 8 ||| b = a * 256 + b := by
  rw [Nat.shiftLeft_eq]
  have h := mul_pow_lor 8 a b (by norm_num; omega)
  norm_num at h ⊢
  exact h

lemma totalFrameLen_cons (l1 l2 : Nat) (t : List Nat) (h2 : l2 < 256) :
    totalFrameLen (0xBE :: 0xEF :: l1 :: l2 :: t) = 2 + 2 + (l1 * 256 + l2) * 2 + 2 := by
  unfold totalFrameLen
  simp only [List.getD_cons_succ, List.getD_cons_zero]
  rw [shiftLeft8_lor l1 l2 h2]

/-! ## A full frame at the front of the buffer is extracted whole -/

lemma make_frame_cons (p : List Nat) :
    make_frame p = 0xBE :: 0xEF :: (p.length / 256 % 256) :: (p.length % 256) ::
      (p.flatMap be16 ++ be16 (crc16_ccitt (frame_body p))) := by
  rw [make_frame_def, frame_body_cons]
  simp

lemma totalFrameLen_make_frame (p : List Nat) (hlen : p.length < 65536) (rest : List Nat) :
    totalFrameLen (make_frame p ++ rest) = (make_frame p).length := by
  rw [make_frame_cons]
  simp only [List.cons_append]
  rw [totalFrameLen_cons _ _ _ (by omega)]
  rw [be16_decode p.length hlen]
  rw [← make_frame_cons, make_frame_length]
  omega

lemma processBuffer_frame_front (p : List Nat) (hlen : p.length < 65536)
    (rest : List Nat) :
    processBuffer (make_frame p ++ rest) =
      (processCandidate (make_frame p) :: (processBuffer rest).1,
        (processBuffer rest).2) := by
  have hcons := make_frame_cons p
  have hsync : find_sync (make_frame p ++ rest) = some 0 := by
    rw [hcons, List.cons_append, List.cons_append]
    exact find_sync_marker _
  have hlen6 : (make_frame p).length = 6 + 2 * p.length := make_frame_length p
  have hTeq : totalFrameLen (make_frame p ++ rest) = (make_frame p).length :=
    totalFrameLen_make_frame p hlen rest
  have h4 : ¬((make_frame p ++ rest).drop 0).length < 4 := by
    simp only [List.drop_zero, List.length_append]
    omega
  have hT : ¬((make_frame p ++ rest).drop 0).length <
      totalFrameLen ((make_frame p ++ rest).drop 0) := by
    simp only [List.drop_zero, hTeq, List.length_append]
    omega
  rw [processBuffer_extract (make_frame p ++ rest) 0 hsync h4 hT]
  simp only [List.drop_zero, hTeq]
  rw [List.take_left, List.drop_left]

/-- Leading marker-free noise before a frame is discarded without emitting
anything. -/
lemma processBuffer_skip_noise (n : List Nat) (hn : find_sync n = none) (t : List Nat) :
    processBuffer (n ++ 0xBE :: 0xEF :: t) = processBuffer (0xBE :: 0xEF :: t) := by
  have h := find_sync_none_append_marker n t hn
  rw [processBuffer_drop_sync _ n.length h, List.drop_left]

/-! ## Claim theorems -/

set_option maxRecDepth 40000 in
/-- C1: Round-trip: for every payload list of 0 to 65535 unsigned 16-bit
items, decoding the bytes produced by the encoder (marker, big-endian length,
big-endian items, big-endian CRC) succeeds with a matching checksum and
yields an identical payload sequence; in particular, encoding payload
`[1,2,3]` gives the 12-byte sequence `BE EF 00 03 00 01 00 02 00 03`
followed by the CRC bytes `62 71`, and decoding it returns a valid frame
with `length = 3` and payload `[1,2,3]`. -/
theorem c1_round_trip :
    (∀ p : List Nat, p.length < 65536 → (∀ x ∈ p, x < 65536) →
      processCandidate (make_frame p) = FrameEvent.valid p) ∧
    make_frame [1, 2, 3] =
      [0xBE, 0xEF, 0x00, 0x03, 0x00, 0x01, 0x00, 0x02, 0x00, 0x03, 0x62, 0x71] ∧
    parseFrame (make_frame [1, 2, 3]) = some (3, [1, 2, 3], 0x6271) ∧
    processCandidate (make_frame [1, 2, 3]) = FrameEvent.valid [1, 2, 3] := by
  refine ⟨fun p h1 h2 => processCandidate_make_frame p h1 h2, ?_, ?_, ?_⟩
  · decide
  · decide
  · decide

/-- C1 witness: the round-trip equation applied at the concrete payload
`[7, 65535]`. -/
theorem c1_round_trip_witness :
    processCandidate (make_frame [7, 65535]) = FrameEvent.valid [7, 65535] :=
  c1_round_trip.1 [7, 65535] (by decide) (by decide)

/-- C2: Chunk-size invariance: for every fixed finite byte stream, running
the reassembly loop with read-chunk size 1 produces the same ordered sequence
of valid-frame payloads as running it with chunk size 8 or with the whole
stream as one chunk. -/
theorem c2_chunk_invariance (data : List Nat) :
    validPayloads (read_serial_stream data 1) =
      validPayloads (read_serial_stream data 8) ∧
    validPayloads (read_serial_stream data 1) =
      validPayloads (read_serial_stream data (max data.length 1)) := by
  rw [read_serial_stream_eq data 1 (by omega),
    read_serial_stream_eq data 8 (by omega),
    read_serial_stream_eq data (max data.length 1)
      (Nat.lt_of_lt_of_le Nat.one_pos (Nat.le_max_right data.length 1))]
  exact ⟨rfl, rfl⟩

set_option maxRecDepth 100000 in
/-- C3 counterexample: with noise `BE EF` (an arbitrary byte string is
allowed by the claim), the stream `noise ++ A ++ noise ++ B` for the valid
frames `A = make_frame [1]` and `B = make_frame [2]` emits NO events at all —
the leading fake marker makes the reassembler read `BE EF` of frame A as a
length field of 0xBEEF items and wait forever for 97756 bytes — so it does
not emit the two valid-frame events the claim requires. -/
theorem c3_resync_counterexample :
    read_serial_stream
        ([0xBE, 0xEF] ++ make_frame [1] ++ [0xBE, 0xEF] ++ make_frame [2]) 8 = [] ∧
    read_serial_stream
        ([0xBE, 0xEF] ++ make_frame [1] ++ [0xBE, 0xEF] ++ make_frame [2]) 8 ≠
      [FrameEvent.valid [1], FrameEvent.valid [2]] := by
  have hS : [0xBE, 0xEF] ++ make_frame [1] ++ [0xBE, 0xEF] ++ make_frame [2] =
      [190, 239, 190, 239, 0, 1, 0, 1, 12, 251, 190, 239, 190, 239, 0, 1, 0, 2,
        60, 152] := by decide
  have h0 : read_serial_stream
      ([0xBE, 0xEF] ++ make_frame [1] ++ [0xBE, 0xEF] ++ make_frame [2]) 8 = [] := by
    rw [read_serial_stream_eq _ 8 (by omega), hS]
    rw [processBuffer_stop_incomplete _ 0 (find_sync_marker _) (by decide) (by decide)]
  exact ⟨h0, by rw [h0]; decide⟩

/-- C3 (amended): for every pair of payloads of 16-bit items and every pair
of noise strings in which the two-byte marker `BE EF` never occurs, feeding
`noise1 ++ make_frame a ++ noise2 ++ make_frame b` to the reassembler (at any
positive chunk size) emits exactly two valid-frame events, payload `a` first
and payload `b` second. -/
theorem c3_resync_amended (a b n1 n2 : List Nat)
    (ha1 : a.length < 65536) (ha2 : ∀ x ∈ a, x < 65536)
    (hb1 : b.length < 65536) (hb2 : ∀ x ∈ b, x < 65536)
    (hn1 : find_sync n1 = none) (hn2 : find_sync n2 = none) :
    ∀ c, 0 < c →
      read_serial_stream (n1 ++ make_frame a ++ n2 ++ make_frame b) c =
        [FrameEvent.valid a, FrameEvent.valid b] := by
  intro c hc
  rw [read_serial_stream_eq _ c hc]
  simp only [List.append_assoc]
  have step1 : processBuffer (n1 ++ (make_frame a ++ (n2 ++ make_frame b))) =
      processBuffer (make_frame a ++ (n2 ++ make_frame b)) := by
    rw [make_frame_cons a]
    simp only [List.cons_append]
    exact processBuffer_skip_noise n1 hn1 _
  have step3 : processBuffer (n2 ++ make_frame b) = processBuffer (make_frame b) := by
    rw [make_frame_cons b]
    exact processBuffer_skip_noise n2 hn2 _
  have step4 : processBuffer (make_frame b) = ([FrameEvent.valid b], []) := by
    have h := processBuffer_frame_front b hb1 []
    rw [List.append_nil] at h
    rw [h, processBuffer_none [] rfl, processCandidate_make_frame b hb1 hb2]
  rw [step1, processBuffer_frame_front a ha1 (n2 ++ make_frame b),
    processCandidate_make_frame a ha1 ha2, step3, step4]

/-- C3 witness: the amended resync theorem applied at payloads `[1]`, `[2]`
with marker-free noise `[0]` and `[]`, chunk size 8. -/
theorem c3_resync_witness :
    read_serial_stream ([0] ++ make_frame [1] ++ [] ++ make_frame [2]) 8 =
      [FrameEvent.valid [1], FrameEvent.valid [2]] :=
  c3_resync_amended [1] [2] [0] [] (by decide) (by decide) (by decide) (by decide)
    (by decide) (by decide) 8 (by decide)

/-- C10 helper: the byte budget of one inner-loop run, by strong induction on
the buffer length. -/
lemma processBuffer_budget :
    ∀ n (buf : List Nat), buf.length ≤ n →
      6 * (processBuffer buf).1.length + (processBuffer buf).2.length ≤ buf.length := by
  intro n
  induction n with
  | zero =>
    intro buf h
    have hbuf : buf = [] := List.length_eq_zero.mp (Nat.le_zero.mp h)
    subst hbuf
    rw [processBuffer_none [] rfl]
    simp
  | succ n ih =>
    intro buf h
    rcases hfs : find_sync buf with - | idx
    · rw [processBuffer_none buf hfs]
      simp
    · by_cases h4 : (buf.drop idx).length < 4
      · rw [processBuffer_stop_short buf idx hfs h4]
        dsimp only
        simp only [List.length_nil, List.length_drop]
        omega
      · by_cases hT : (buf.drop idx).length < totalFrameLen (buf.drop idx)
        · rw [processBuffer_stop_incomplete buf idx hfs h4 hT]
          dsimp only
          simp only [List.length_nil, List.length_drop]
          omega
        · rw [processBuffer_extract buf idx hfs h4 hT]
          have h6 := totalFrameLen_ge (buf.drop idx)
          have hrest := ih ((buf.drop idx).drop (totalFrameLen (buf.drop idx)))
            (by simp only [List.length_drop] at hT ⊢; omega)
          simp only [List.length_cons, List.length_drop] at hrest hT ⊢
          omega

/-- C10: Inner-loop termination: the inner per-chunk loop always terminates
(`processBuffer` is a total function, defined by well-founded recursion on
the buffer length), and quantitatively: every emitted event accounts for an
extracted candidate of at least 6 buffer bytes, so six times the number of
events plus the leftover never exceeds the input length. -/
theorem c10_termination_bound (buf : List Nat) :
    6 * (processBuffer buf).1.length + (processBuffer buf).2.length ≤ buf.length :=
  processBuffer_budget buf.length buf le_rfl

/-- C4: Completeness check and extraction: whenever the marker sits at the
buffer front and the length field `L` has been read, the reassembler computes
the candidate size as `4 + 2*L + 2` bytes; if the buffer holds fewer bytes
than that it extracts nothing and keeps the buffer for more input, and
otherwise it removes exactly that many bytes from the buffer front as the
candidate frame and continues on the rest. -/
theorem c4_completeness_extract (buf : List Nat)
    (h0 : buf.getD 0 0 = 0xBE) (h1 : buf.getD 1 0 = 0xEF) (h2 : 2 ≤ buf.length) :
    totalFrameLen buf = 4 + 2 * (buf.getD 2 0 <<< 8 ||| buf.getD 3 0) + 2 ∧
    (4 ≤ buf.length → buf.length < totalFrameLen buf →
      processBuffer buf = ([], buf)) ∧
    (totalFrameLen buf ≤ buf.length →
      processBuffer buf =
        (processCandidate (buf.take (totalFrameLen buf)) ::
            (processBuffer (buf.drop (totalFrameLen buf))).1,
          (processBuffer (buf.drop (totalFrameLen buf))).2)) := by
  obtain ⟨u, rfl⟩ : ∃ u, buf = 0xBE :: 0xEF :: u := by
    match buf with
    | [] => simp at h2
    | [x] => simp at h2
    | x :: y :: u =>
      simp only [List.getD_cons_zero, List.getD_cons_succ] at h0 h1
      exact ⟨u, by rw [h0, h1]⟩
  have hsync : find_sync (0xBE :: 0xEF :: u) = some 0 := find_sync_marker u
  refine ⟨by unfold totalFrameLen; omega, ?_, ?_⟩
  · intro hge4 hlt
    have h := processBuffer_stop_incomplete (0xBE :: 0xEF :: u) 0 hsync
      (by simpa using hge4) (by simpa using hlt)
    simpa using h
  · intro hge
    have h6 := totalFrameLen_ge (0xBE :: 0xEF :: u)
    have h := processBuffer_extract (0xBE :: 0xEF :: u) 0 hsync
      (by simp only [List.drop_zero]; omega) (by simpa using hge)
    simpa using h

/-- C4 witness: a buffer with the marker at the front, length field `L = 1`
and only 5 of the 8 required bytes extracts nothing and is kept unchanged. -/
theorem c4_witness :
    processBuffer [0xBE, 0xEF, 0, 1, 0] = ([], [0xBE, 0xEF, 0, 1, 0]) :=
  (c4_completeness_extract [0xBE, 0xEF, 0, 1, 0] (by decide) (by decide)
    (by decide)).2.1 (by decide) (by decide)

/-- C5: Sync-search discard policy: if no two-byte marker occurrence
`BE EF` exists anywhere in the buffer, the sync step leaves the buffer
completely unchanged and emits nothing; and when the first marker occurrence
is at index `idx` (which is what `find_sync` returns), exactly the `idx`
bytes preceding it are dropped from the front — the run continues on
`buf.drop idx`, whose first two bytes are the marker. -/
theorem c5_sync_discard (buf : List Nat) :
    ((∀ j t, buf.drop j ≠ 0xBE :: 0xEF :: t) → processBuffer buf = ([], buf)) ∧
    (∀ idx, find_sync buf = some idx →
      (buf.drop idx).take 2 = [0xBE, 0xEF] ∧
        (∀ j, j < idx → ∀ t, buf.drop j ≠ 0xBE :: 0xEF :: t) ∧
        processBuffer buf = processBuffer (buf.drop idx)) := by
  constructor
  · intro hno
    have hfs : find_sync buf = none := by
      rcases hfs : find_sync buf with - | idx
      · rfl
      · obtain ⟨t, ht⟩ := find_sync_drop buf idx hfs
        exact absurd ht (hno idx t)
    exact processBuffer_none buf hfs
  · intro idx hfs
    obtain ⟨⟨t, ht⟩, hmin⟩ := (find_sync_eq_some_iff buf idx).mp hfs
    refine ⟨by rw [ht]; rfl, ?_, processBuffer_drop_sync buf idx hfs⟩
    intro j hj t' ht'
    exact hmin j hj ⟨t', ht'⟩

/-- C5 witness: in the buffer `[1, BE, EF]` the first marker occurrence is at
index 1; the run drops exactly the one leading byte, leaving the marker as
the first two buffer bytes. -/
theorem c5_witness :
    ([1, 0xBE, 0xEF].drop 1).take 2 = [0xBE, 0xEF] ∧
      processBuffer [1, 0xBE, 0xEF] = processBuffer ([1, 0xBE, 0xEF].drop 1) :=
  ⟨((c5_sync_discard [1, 0xBE, 0xEF]).2 1 (by decide)).1,
    ((c5_sync_discard [1, 0xBE, 0xEF]).2 1 (by decide)).2.2⟩

/-- C9 helper: a proper prefix of an encoded frame, processed alone, emits no
event: either there are not yet two marker bytes, or fewer than four bytes
after the marker, or fewer bytes than the length field demands. -/
lemma processBuffer_truncated (b : List Nat) (k : Nat)
    (hb1 : b.length < 65536) (hk : k < (make_frame b).length) :
    processBuffer ((make_frame b).take k) = ([], (make_frame b).take k) := by
  have hmb := make_frame_cons b
  have hlenf := make_frame_length b
  have htlen : ((make_frame b).take k).length = k := by
    rw [List.length_take]
    omega
  by_cases h2 : k < 2
  · exact processBuffer_none _ (find_sync_short _ (by omega))
  · obtain ⟨k2, rfl⟩ : ∃ k2, k = k2 + 2 := ⟨k - 2, by omega⟩
    have hcons : (make_frame b).take (k2 + 2) =
        0xBE :: 0xEF :: ((b.length / 256 % 256 :: b.length % 256 ::
          (b.flatMap be16 ++ be16 (crc16_ccitt (frame_body b)))).take k2) := by
      rw [hmb]
      simp [List.take_succ_cons]
    have hsync : find_sync ((make_frame b).take (k2 + 2)) = some 0 := by
      rw [hcons]; exact find_sync_marker _
    by_cases h4 : k2 + 2 < 4
    · have h := processBuffer_stop_short _ 0 hsync (by simpa [htlen] using h4)
      simpa using h
    · obtain ⟨k4, rfl⟩ : ∃ k4, k2 = k4 + 2 := ⟨k2 - 2, by omega⟩
      have hcons4 : (make_frame b).take (k4 + 2 + 2) =
          0xBE :: 0xEF :: (b.length / 256 % 256) :: (b.length % 256) ::
            ((b.flatMap be16 ++ be16 (crc16_ccitt (frame_body b))).take k4) := by
        rw [hcons]
        simp [List.take_succ_cons]
      have hT : ((make_frame b).take (k4 + 2 + 2)).length <
          totalFrameLen ((make_frame b).take (k4 + 2 + 2)) := by
        rw [htlen]
        rw [hcons4, totalFrameLen_cons _ _ _ (by omega)]
        rw [be16_decode b.length hb1]
        omega
      have h := processBuffer_stop_incomplete _ 0 hsync
        (by simp only [List.drop_zero]; omega) (by simpa using hT)
      simpa using h

/-- C9: Partial tail at end-of-stream: for every valid encoded frame A and
every proper prefix of another valid encoded frame B, feeding A followed by
the truncated prefix (at any positive chunk size) emits a valid-frame event
for A only; the truncated tail produces no frame event and is silently
dropped when the stream ends. -/
theorem c9_partial_tail (a b : List Nat) (k : Nat)
    (ha1 : a.length < 65536) (ha2 : ∀ x ∈ a, x < 65536)
    (hb1 : b.length < 65536) (hk : k < (make_frame b).length) :
    ∀ c, 0 < c →
      read_serial_stream (make_frame a ++ (make_frame b).take k) c =
        [FrameEvent.valid a] := by
  intro c hc
  rw [read_serial_stream_eq _ c hc]
  rw [processBuffer_frame_front a ha1 _, processCandidate_make_frame a ha1 ha2]
  rw [processBuffer_truncated b k hb1 hk]

/-- C9 witness: frame `[1]` followed by a 7-byte proper prefix of the 10-byte
frame `[2,2]`, read at chunk size 8, emits exactly one event: valid `[1]`. -/
theorem c9_partial_tail_witness :
    read_serial_stream (make_frame [1] ++ (make_frame [2, 2]).take 7) 8 =
      [FrameEvent.valid [1]] :=
  c9_partial_tail [1] [2, 2] 7 (by decide) (by decide) (by decide) (by decide)
    8 (by decide)

/-- C7: Decode is total and tagged: for every extracted candidate byte
sequence the decode-and-validate step produces exactly one of three tagged
outcomes — valid frame, checksum mismatch, or parse error — and in both
error outcomes the raw candidate bytes are attached to the report.  (The
model function is total, mirroring the `try/except` in the source that
converts any parse exception into a reported event instead of propagating
it out of the loop.) -/
theorem c7_decode_total (frame : List Nat) :
    (∃ p, processCandidate frame = FrameEvent.valid p) ∨
    (∃ comp recv, processCandidate frame = FrameEvent.crcMismatch comp recv frame ∧
      comp ≠ recv) ∨
    processCandidate frame = FrameEvent.parseError frame := by
  rcases h : parseFrame frame with - | ⟨L, payload, crc⟩
  · right; right
    simp [processCandidate, h]
  · by_cases hc : crc = crc16_ccitt (frame.take (frame.length - 2))
    · left
      exact ⟨payload, by simp [processCandidate, h, hc]⟩
    · right; left
      exact ⟨crc16_ccitt (frame.take (frame.length - 2)), crc,
        by simp [processCandidate, h, hc], fun he => hc he.symm⟩

/-! ## C8: every extracted candidate parses -/

lemma parseItems_of_le :
    ∀ (L : Nat) (bytes : List Nat), 2 * L ≤ bytes.length →
      ∃ items rest, parseItems L bytes = some (items, rest) ∧
        rest = bytes.drop (2 * L) := by
  intro L
  induction L with
  | zero => intro bytes h; exact ⟨[], bytes, rfl, by simp⟩
  | succ L ih =>
    intro bytes h
    match bytes with
    | [] => simp at h
    | [x] => simp at h; omega
    | x :: y :: z =>
      have hz : 2 * L ≤ z.length := by
        simp only [List.length_cons] at h
        omega
      obtain ⟨items, rest, hpi, hrest⟩ := ih z hz
      refine ⟨(x * 256 + y) :: items, rest, ?_, ?_⟩
      · rw [parseItems]
        simp [parse_u16, hpi]
      · rw [hrest]
        have h2 : 2 * (L + 1) = 2 * L + 1 + 1 := by omega
        rw [h2]
        simp [List.drop_succ_cons]

lemma take_cons4 (n a b c d : Nat) (l : List Nat) :
    (a :: b :: c :: d :: l).take (n + 4) = a :: b :: c :: d :: l.take n := rfl

/-- The candidate that the inner loop extracts — marker at the front, then
the length field, then exactly as many bytes as the length field demands —
always parses structurally. -/
lemma parseFrame_extracted (l1 l2 : Nat) (w : List Nat) (h2 : l2 < 256)
    (hlen : 2 * (l1 * 256 + l2) + 2 ≤ w.length) :
    ∃ payload crc,
      parseFrame ((0xBE :: 0xEF :: l1 :: l2 :: w).take
          (totalFrameLen (0xBE :: 0xEF :: l1 :: l2 :: w))) =
        some (l1 * 256 + l2, payload, crc) := by
  rw [totalFrameLen_cons l1 l2 w h2]
  have harith : 2 + 2 + (l1 * 256 + l2) * 2 + 2 = 2 * (l1 * 256 + l2) + 2 + 4 := by
    omega
  rw [harith, take_cons4]
  rw [parseFrame]
  have htw : 2 * (l1 * 256 + l2) ≤ (w.take (2 * (l1 * 256 + l2) + 2)).length := by
    rw [List.length_take]
    omega
  obtain ⟨items, rest, hpi, hrest⟩ := parseItems_of_le (l1 * 256 + l2) _ htw
  rw [hpi]
  have hrlen : rest.length = 2 := by
    rw [hrest, List.length_drop, List.length_take]
    omega
  obtain ⟨r1, r2, hr⟩ := List.length_eq_two.mp hrlen
  subst hr
  exact ⟨items, r1 * 256 + r2, by simp [parse_u16]⟩

lemma processCandidate_not_parseError_of_parse (frame : List Nat)
    (L : Nat) (payload : List Nat) (crc : Nat)
    (h : parseFrame frame = some (L, payload, crc)) :
    (∃ p, processCandidate frame = FrameEvent.valid p) ∨
    (∃ comp recv raw, processCandidate frame = FrameEvent.crcMismatch comp recv raw) := by
  by_cases hc : crc = crc16_ccitt (frame.take (frame.length - 2))
  · exact Or.inl ⟨payload, by simp [processCandidate, h, hc]⟩
  · exact Or.inr ⟨crc16_ccitt (frame.take (frame.length - 2)), crc, frame,
      by simp [processCandidate, h, hc]⟩

lemma c8_aux :
    ∀ n (buf : List Nat), buf.length ≤ n → (∀ x ∈ buf, x < 256) →
      ∀ e ∈ (processBuffer buf).1,
        (∃ p, e = FrameEvent.valid p) ∨
        (∃ comp recv raw, e = FrameEvent.crcMismatch comp recv raw) := by
  intro n
  induction n with
  | zero =>
    intro buf h _ e he
    have hbuf : buf = [] := List.length_eq_zero.mp (Nat.le_zero.mp h)
    subst hbuf
    rw [processBuffer_none [] rfl] at he
    simp at he
  | succ n ih =>
    intro buf h hbytes e he
    rcases hfs : find_sync buf with - | idx
    · rw [processBuffer_none buf hfs] at he
      simp at he
    · by_cases h4 : (buf.drop idx).length < 4
      · rw [processBuffer_stop_short buf idx hfs h4] at he
        simp at he
      · by_cases hT : (buf.drop idx).length < totalFrameLen (buf.drop idx)
        · rw [processBuffer_stop_incomplete buf idx hfs h4 hT] at he
          simp at he
        · rw [processBuffer_extract buf idx hfs h4 hT] at he
          obtain ⟨t, ht⟩ := find_sync_drop buf idx hfs
          obtain ⟨l1, l2, w, hw⟩ : ∃ l1 l2 w, buf.drop idx =
              0xBE :: 0xEF :: l1 :: l2 :: w := by
            match t, ht with
            | [], ht => rw [ht] at h4; simp at h4
            | [x], ht => rw [ht] at h4; simp at h4
            | l1 :: l2 :: w, ht => exact ⟨l1, l2, w, ht⟩
          have hdropbytes : ∀ x ∈ buf.drop idx, x < 256 := fun x hx =>
            hbytes x (List.mem_of_mem_drop hx)
          have hl2 : l2 < 256 := by
            apply hdropbytes
            rw [hw]
            simp
          have hwlen : 2 * (l1 * 256 + l2) + 2 ≤ w.length := by
            rw [hw] at hT
            rw [totalFrameLen_cons l1 l2 w hl2] at hT
            simp only [List.length_cons] at hT
            omega
          rcases List.mem_cons.mp he with hhead | htail
          · subst hhead
            obtain ⟨payload, crc, hp⟩ := parseFrame_extracted l1 l2 w hl2 hwlen
            rw [← hw] at hp
            exact processCandidate_not_parseError_of_parse _ _ _ _ hp
          · have h6 := totalFrameLen_ge (buf.drop idx)
            refine ih ((buf.drop idx).drop (totalFrameLen (buf.drop idx)))
              ?_ ?_ e htail
            · simp only [List.length_drop] at hT ⊢
              omega
            · exact fun x hx => hdropbytes x (List.mem_of_mem_drop hx)

/-- C8: Malformed branch unreachable under the search contract: on a byte
stream (every buffer entry a byte), every event the reassembler emits is a
valid frame or a checksum mismatch — the structural parse of every extracted
candidate succeeds, so the parse-error branch is never taken. -/
theorem c8_no_parse_error (buf : List Nat) (hbytes : ∀ x ∈ buf, x < 256) :
    ∀ e ∈ (processBuffer buf).1,
      (∃ p, e = FrameEvent.valid p) ∨
      (∃ comp recv raw, e = FrameEvent.crcMismatch comp recv raw) :=
  c8_aux buf.length buf le_rfl hbytes

/-- C8 witness: the single event that the reassembler emits on the buffer
`make_frame []` is a valid frame, not a parse error. -/
theorem c8_no_parse_error_witness :
    (∃ p, FrameEvent.valid ([] : List Nat) = FrameEvent.valid p) ∨
    (∃ comp recv raw,
      FrameEvent.valid ([] : List Nat) = FrameEvent.crcMismatch comp recv raw) := by
  have hpb : processBuffer (make_frame []) = ([FrameEvent.valid []], []) := by
    have h := processBuffer_frame_front [] (by decide) []
    rw [List.append_nil] at h
    rw [h, processBuffer_none [] rfl, processCandidate_make_frame [] (by decide)
      (by decide)]
  have hmem : FrameEvent.valid [] ∈ (processBuffer (make_frame [])).1 := by
    rw [hpb]
    exact List.mem_singleton.mpr rfl
  exact c8_no_parse_error (make_frame []) (by decide) (FrameEvent.valid []) hmem

/-! ## C6: a single flipped payload byte always changes the CRC -/

lemma crc_round_inj {c1 c2 : Nat} (h1 : c1 < 65536) (h2 : c2 < 65536)
    (h : crc_round c1 = crc_round c2) : c1 = c2 := by
  unfold crc_round at h
  by_cases b1 : 0x8000 ≤ c1 <;> by_cases b2 : 0x8000 ≤ c2
  · rw [if_pos b1, if_pos b2] at h
    have := Nat.xor_left_inj.mp h
    omega
  · rw [if_pos b1, if_neg b2] at h
    have hpar := congrArg (· % 2) h
    simp only [Nat.xor_mod_two_eq] at hpar
    omega
  · rw [if_neg b1, if_pos b2] at h
    have hpar := congrArg (· % 2) h
    simp only [Nat.xor_mod_two_eq] at hpar
    omega
  · rw [if_neg b1, if_neg b2] at h
    omega

lemma crc_round_iterate_inj (k : Nat) :
    ∀ c1 c2, c1 < 65536 → c2 < 65536 →
      crc_round^[k] c1 = crc_round^[k] c2 → c1 = c2 := by
  induction k with
  | zero => intro c1 c2 _ _ h; exact h
  | succ k ih =>
    intro c1 c2 h1 h2 h
    rw [Function.iterate_succ_apply, Function.iterate_succ_apply] at h
    exact crc_round_inj h1 h2 (ih _ _ (crc_round_lt h1) (crc_round_lt h2) h)

lemma shiftLeft8_lt {b : Nat} (hb : b < 256) : b <<< 8 < 65536 := by
  rw [Nat.shiftLeft_eq]
  norm_num
  omega

lemma crc_update_inj_right {c b1 b2 : Nat} (hc : c < 65536) (h1 : b1 < 256)
    (h2 : b2 < 256) (h : crc_update c b1 = crc_update c b2) : b1 = b2 := by
  unfold crc_update at h
  have hx := crc_round_iterate_inj 8 _ _
    (xor_lt_65536 hc (shiftLeft8_lt h1)) (xor_lt_65536 hc (shiftLeft8_lt h2)) h
  have hs := Nat.xor_right_injective hx
  rw [Nat.shiftLeft_eq, Nat.shiftLeft_eq] at hs
  omega

lemma crc_update_inj_left {c1 c2 b : Nat} (h1 : c1 < 65536) (h2 : c2 < 65536)
    (hb : b < 256) (h : crc_update c1 b = crc_update c2 b) : c1 = c2 := by
  unfold crc_update at h
  have hx := crc_round_iterate_inj 8 _ _
    (xor_lt_65536 h1 (shiftLeft8_lt hb)) (xor_lt_65536 h2 (shiftLeft8_lt hb)) h
  exact Nat.xor_left_inj.mp hx

lemma crc_foldl_inj (suffix : List Nat) :
    ∀ c1 c2, (∀ x ∈ suffix, x < 256) → c1 < 65536 → c2 < 65536 →
      suffix.foldl crc_update c1 = suffix.foldl crc_update c2 → c1 = c2 := by
  induction suffix with
  | nil => intro c1 c2 _ _ _ h; exact h
  | cons b rest ih =>
    intro c1 c2 hb h1 h2 h
    rw [List.foldl_cons, List.foldl_cons] at h
    have hb0 : b < 256 := hb b (List.mem_cons_self b rest)
    have hupd := ih _ _ (fun x hx => hb x (List.mem_cons_of_mem b hx))
      (crc_update_lt h1 hb0) (crc_update_lt h2 hb0) h
    exact crc_update_inj_left h1 h2 hb0 hupd

/-- CRC-16 detects every single-byte change: two byte strings that differ in
exactly one byte position have different checksums. -/
lemma crc16_single_byte_change (pre suf : List Nat) (x y : Nat)
    (hpre : ∀ v ∈ pre, v < 256) (hsuf : ∀ v ∈ suf, v < 256)
    (hx : x < 256) (hy : y < 256) (hxy : x ≠ y) :
    crc16_ccitt (pre ++ x :: suf) ≠ crc16_ccitt (pre ++ y :: suf) := by
  intro h
  unfold crc16_ccitt at h
  rw [List.foldl_append, List.foldl_append, List.foldl_cons, List.foldl_cons] at h
  have hc0lt : pre.foldl crc_update 0xFFFF < 65536 :=
    crc_foldl_lt pre 0xFFFF (by norm_num) hpre
  have hupd := crc_foldl_inj suf _ _ hsuf (crc_update_lt hc0lt hx)
    (crc_update_lt hc0lt hy) h
  exact hxy (crc_update_inj_right hc0lt hx hy hupd)

lemma getD_eq_getElem {l : List Nat} {i : Nat} (h : i < l.length) :
    l.getD i 0 = l[i] := by
  rw [List.getD_eq_getElem?_getD, List.getElem?_eq_getElem h]
  rfl

lemma getD_mem {l : List Nat} {i : Nat} (h : i < l.length) : l.getD i 0 ∈ l := by
  rw [getD_eq_getElem h]
  exact List.getElem_mem h

lemma getD_decomp {l : List Nat} {i : Nat} (h : i < l.length) :
    l = l.take i ++ l.getD i 0 :: l.drop (i + 1) := by
  rw [getD_eq_getElem h, ← List.drop_eq_getElem_cons h, List.take_append_drop]

lemma set_decomp {l : List Nat} {i : Nat} (v : Nat) (h : i < l.length) :
    l.set i v = l.take i ++ v :: l.drop (i + 1) := by
  rw [List.set_eq_take_append_cons_drop, if_pos h]

lemma set_cons4 (n v a b c d : Nat) (l : List Nat) :
    (a :: b :: c :: d :: l).set (n + 4) v = a :: b :: c :: d :: l.set n v := rfl

/-- Structural parse of a frame whose payload region was altered: the parse
still succeeds and still returns the original transmitted CRC. -/
lemma parseFrame_flipped (p : List Nat) (j v : Nat) (hlen : p.length < 65536) :
    ∃ items,
      parseFrame (0xBE :: 0xEF :: (p.length / 256 % 256) :: (p.length % 256) ::
          ((p.flatMap be16).set j v ++ be16 (crc16_ccitt (frame_body p)))) =
        some (p.length, items, crc16_ccitt (frame_body p)) := by
  have hC := crc16_lt (frame_body p) (frame_body_mem_lt p)
  rw [parseFrame]
  rw [be16_decode p.length hlen]
  obtain ⟨items, rest, hpi, hrest⟩ := parseItems_of_le p.length
    ((p.flatMap be16).set j v ++ be16 (crc16_ccitt (frame_body p)))
    (by rw [List.length_append, List.length_set, flatMap_be16_length]; omega)
  have hrest2 : rest = be16 (crc16_ccitt (frame_body p)) := by
    rw [hrest]
    have hsl : ((p.flatMap be16).set j v).length = 2 * p.length := by
      rw [List.length_set, flatMap_be16_length]
    rw [← hsl]
    exact List.drop_left _ _
  rw [hpi, hrest2]
  refine ⟨items, ?_⟩
  simp only [be16, parse_u16]
  rw [be16_decode _ hC]

set_option maxRecDepth 40000 in
/-- C6: Detected corruption: for every valid encoded frame, flipping any
single payload byte after encoding (any byte position in the payload region,
changed to any different byte value) and then decoding the altered frame
yields a checksum-mismatch outcome reporting the computed and received CRC
values — which really differ — never a valid-frame outcome. -/
theorem c6_detected_corruption (p : List Nat) (i v : Nat)
    (hlen : p.length < 65536) (hi4 : 4 ≤ i) (hip : i < 4 + 2 * p.length)
    (hv : v < 256) (hch : v ≠ (make_frame p).getD i 0) :
    ∃ comp recv,
      processCandidate ((make_frame p).set i v) =
        FrameEvent.crcMismatch comp recv ((make_frame p).set i v) ∧
      comp ≠ recv := by
  have hbl : (frame_body p).length = 4 + 2 * p.length := frame_body_length p
  have hi_lt : i < (frame_body p).length := by omega
  have hsplit : (make_frame p).set i v =
      (frame_body p).set i v ++ be16 (crc16_ccitt (frame_body p)) := by
    rw [make_frame_def, List.set_append, if_pos hi_lt]
  obtain ⟨j, rfl⟩ : ∃ j, i = j + 4 := ⟨i - 4, by omega⟩
  have hbodyset : (frame_body p).set (j + 4) v =
      0xBE :: 0xEF :: (p.length / 256 % 256) :: (p.length % 256) ::
        (p.flatMap be16).set j v := by
    rw [frame_body_cons]
    exact set_cons4 j v _ _ _ _ _
  have hF : (make_frame p).set (j + 4) v =
      0xBE :: 0xEF :: (p.length / 256 % 256) :: (p.length % 256) ::
        ((p.flatMap be16).set j v ++ be16 (crc16_ccitt (frame_body p))) := by
    rw [hsplit, hbodyset]
    rfl
  obtain ⟨items, hparse0⟩ := parseFrame_flipped p j v hlen
  have hparse : parseFrame ((make_frame p).set (j + 4) v) =
      some (p.length, items, crc16_ccitt (frame_body p)) := by
    rw [hF]
    exact hparse0
  -- the recomputed checksum covers the altered body
  have htake : ((make_frame p).set (j + 4) v).take
      (((make_frame p).set (j + 4) v).length - 2) = (frame_body p).set (j + 4) v := by
    have hFlen : ((make_frame p).set (j + 4) v).length = (4 + 2 * p.length) + 2 := by
      rw [List.length_set, make_frame_length]
      omega
    have hbsl : ((frame_body p).set (j + 4) v).length = 4 + 2 * p.length := by
      rw [List.length_set, hbl]
    rw [hFlen, hsplit]
    rw [show (4 + 2 * p.length) + 2 - 2 = 4 + 2 * p.length from by omega]
    rw [← hbsl]
    exact List.take_left _ _
  -- the altered body has a different checksum than the original one
  have hold : (make_frame p).getD (j + 4) 0 = (frame_body p).getD (j + 4) 0 := by
    rw [make_frame_def]
    exact List.getD_append _ _ _ _ hi_lt
  have hold_lt : (frame_body p).getD (j + 4) 0 < 256 :=
    frame_body_mem_lt p _ (getD_mem hi_lt)
  have hdiff : crc16_ccitt ((frame_body p).set (j + 4) v) ≠
      crc16_ccitt (frame_body p) := by
    rw [set_decomp v hi_lt]
    conv_rhs => rw [getD_decomp hi_lt]
    exact crc16_single_byte_change _ _ v _
      (fun x hx => frame_body_mem_lt p x (List.take_subset _ _ hx))
      (fun x hx => frame_body_mem_lt p x (List.drop_subset _ _ hx))
      hv hold_lt (by rw [← hold]; exact hch)
  refine ⟨crc16_ccitt ((frame_body p).set (j + 4) v), crc16_ccitt (frame_body p),
    ?_, hdiff⟩
  unfold processCandidate
  rw [hparse]
  dsimp only
  rw [htake]
  rw [if_neg (fun hcontra => hdiff hcontra.symm)]

/-- C6 witness: flipping the first payload byte of the encoded frame for
payload `[1]` from 0 to 1 is reported as a CRC mismatch with differing
computed and received values. -/
theorem c6_detected_corruption_witness :
    ∃ comp recv,
      processCandidate ((make_frame [1]).set 4 1) =
        FrameEvent.crcMismatch comp recv ((make_frame [1]).set 4 1) ∧
      comp ≠ recv :=
  c6_detected_corruption [1] 4 1 (by decide) (by decide) (by decide) (by decide)
    (by decide)

set_option maxRecDepth 10000 in
/-- Sanity check of the CRC model against the published CRC-16/CCITT-FALSE
test vector: the checksum of the ASCII string "123456789" is 0x29B1. -/
lemma crc16_ccitt_check_vector :
    crc16_ccitt [49, 50, 51, 52, 53, 54, 55, 56, 57] = 0x29B1 := by decide
